import Mathlib

/-!
Verification development for the `dlqmc` sampling core
(`src/dlqmc/sampling.py`).

Tensors are embedded as nested lists of rationals: a spatial vector is a
`List ℚ` (three coordinates), a walker position is a `List Vec`
(electrons × 3), and a walker batch is a `List Pos` (walkers × electrons
× 3).  Elementwise tensor arithmetic becomes nested `List.zipWith`/`map`,
and reductions over the electron and spatial axes become nested list sums.
The external randomness (Gaussian proposal noise, uniform acceptance
draws, random-choice oracles) is passed in explicitly, and the external
wavefunction and quantum-force evaluators are parameters: the force
evaluator returns `Except` to model the factorization failure it may
raise.  `torch.exp` is modelled by an explicit map `texp : ℚ → ℚ` and
`np.sqrt tau` by an explicit value `sqrtTau`, keeping every definition
executable.
-/

namespace DLQMC

unseal Rat.mul Rat.add Rat.sub Rat.inv

/-- A spatial vector: the three coordinates of one electron. -/
abbrev Vec := List ℚ

/-- One walker's position: electrons × 3. -/
abbrev Pos := List Vec

/-- A walker batch: walkers × electrons × 3. -/
abbrev Batch := List Pos

/-- Elementwise combination of two spatial vectors. -/
def vzip (f : ℚ → ℚ → ℚ) : Vec → Vec → Vec := List.zipWith f

/-- Elementwise combination of two walker positions. -/
def pzip (f : ℚ → ℚ → ℚ) : Pos → Pos → Pos := List.zipWith (vzip f)

/-- Elementwise combination of two walker batches. -/
def bzip (f : ℚ → ℚ → ℚ) : Batch → Batch → Batch := List.zipWith (pzip f)

/-- Elementwise map over one walker position. -/
def pmap (f : ℚ → ℚ) : Pos → Pos := fun p => p.map (List.map f)

/-- Elementwise map over a walker batch. -/
def bmap (f : ℚ → ℚ) : Batch → Batch := fun b => b.map (pmap f)

/-- Scalar times batch, as in `stepsize * forces`. -/
def bscale (c : ℚ) : Batch → Batch := bmap (fun x => c * x)

/-- `tensor.sum(dim=(-1,-2))` for a single walker: sum over the electron
and spatial axes. -/
def psum (p : Pos) : ℚ := (p.map (fun v => v.sum)).sum

/-- `torch.sum(t ** 2, dim=[-1,-2])` for a single walker: the squared
norm over the electron and spatial axes. -/
def sq2sum (p : Pos) : ℚ := psum (p.map (List.map (fun x => x ^ 2)))

/-- Shape predicate: a batch of `W` walkers, each with `E` electrons
and three coordinates per electron. -/
def HasShape (b : Batch) (W E : ℕ) : Prop :=
  b.length = W ∧ ∀ p ∈ b, p.length = E ∧ ∀ v ∈ p, v.length = 3

instance (b : Batch) (W E : ℕ) : Decidable (HasShape b W E) := by
  unfold HasShape; infer_instance

/-- Modelled from the spec: Conditional Assignment (§4.1) — given a
current-state list, a proposed-state list of the same length and a
per-walker accept mask, produce the state whose accepted rows carry the
proposed values and whose other rows keep the current values.  (The
source's `assign_where` from `dlqmc.utils` mutates in place; the model
returns the overwritten list.) -/
def assign_where {α : Type} : List α → List α → List Bool → List α
  | c :: cs, n :: ns, m :: ms => (if m then n else c) :: assign_where cs ns ms
  | _, _, _ => []

/-- Modelled from the spec: `torchext.LUFactError` (§7) — the
factorization-failure kind raised by the force evaluator, carrying the
failing walker indices; `rs` is the diagnostic slot the Langevin kernel
fills with the offending pre-update positions. -/
structure LUFactError where
  idxs : List ℕ
  rs : Option Batch := none
deriving Repr, DecidableEq

deriving instance DecidableEq for Except

/-- The external quantum-force evaluator, already partially applied to
the wavefunction and the clamp: maps a batch to (forces, amplitudes) or
raises a factorization failure. -/
abbrev QF := Batch → Except LUFactError (Batch × List ℚ)

/-- A total force/amplitude evaluator lifted into the fallible signature. -/
def liftQF (f : Batch → Batch × List ℚ) : QF := fun b => .ok (f b)

/-- `rs[idxs]` : select the rows of a batch at the given indices. -/
def indexSelect (rs : Batch) (idxs : List ℕ) : Batch :=
  idxs.filterMap (fun i => rs.get? i)

/-! ## Langevin kernel (`langevin_monte_carlo`) -/

/-- Langevin chain state: positions, amplitudes, forces and the
per-walker lifetime counters. -/
structure LangevinState where
  rs : Batch
  psis : List ℚ
  forces : Batch
  lifetime : List ℕ
deriving Repr, DecidableEq

/-- The per-step Langevin diagnostics record. -/
structure LangevinInfo where
  acceptance : ℚ
  lifetime : List ℕ
deriving Repr, DecidableEq

/-- One yielded Langevin snapshot: positions, amplitudes, diagnostics. -/
structure LangevinYield where
  rs : Batch
  psis : List ℚ
  info : LangevinInfo
deriving Repr, DecidableEq

/-- `rs_new = rs + forces * tau + torch.randn_like(rs) * np.sqrt(tau)`. -/
def langevinProposal (rs forces noise : Batch) (tau sqrtTau : ℚ) : Batch :=
  bzip (fun a n => a + n * sqrtTau) (bzip (fun r f => r + f * tau) rs forces) noise

/-- `log_G_ratios = ((forces + forces_new) * ((rs - rs_new) + tau / 2 *
(forces - forces_new))).sum(dim=(-1,-2))`. -/
def langevinLogG (rs rs_new forces forces_new : Batch) (tau : ℚ) : List ℚ :=
  (bzip (fun x y => x * y)
      (bzip (fun x y => x + y) forces forces_new)
      (bzip (fun d e => d + tau / 2 * e)
        (bzip (fun x y => x - y) rs rs_new)
        (bzip (fun x y => x - y) forces forces_new))).map psum

/-- `lifetime[accepted] = 0; lifetime[~accepted] += 1`, per walker. -/
def lifetimeUpdate (accepted : Bool) (l : ℕ) : ℕ := if accepted then 0 else l + 1

/-- The acceptance fraction diagnostic:
`accepted.type(torch.int).sum().item() / rs.shape[0]`. -/
def acceptanceFrac (accepted : List Bool) (nWalkers : ℕ) : ℚ :=
  (accepted.count true : ℚ) / (nWalkers : ℚ)

/-- One iteration of the `langevin_monte_carlo` loop body: propose,
evaluate forces (attaching the offending positions on a factorization
failure), accept/reject, update lifetimes, apply the joint conditional
assignment, and yield the post-update snapshot. -/
def langevinStep (qf : QF) (tau sqrtTau : ℚ) (texp : ℚ → ℚ)
    (s : LangevinState) (noise : Batch) (unif : List ℚ) :
    Except LUFactError (LangevinYield × LangevinState) :=
  let rs_new := langevinProposal s.rs s.forces noise tau sqrtTau
  match qf rs_new with
  | .error e => .error { e with rs := some (indexSelect s.rs e.idxs) }
  | .ok fp =>
    let forces_new := fp.1
    let psis_new := fp.2
    let logG := langevinLogG s.rs rs_new s.forces forces_new tau
    let Ps := List.zipWith (fun g r => texp g * r) logG
      (List.zipWith (fun pn p => pn ^ 2 / p ^ 2) psis_new s.psis)
    let accepted := List.zipWith (fun P u => decide (P > u)) Ps unif
    let lifetime := List.zipWith lifetimeUpdate accepted s.lifetime
    let info : LangevinInfo := ⟨acceptanceFrac accepted s.rs.length, lifetime⟩
    let rs' := assign_where s.rs rs_new accepted
    let psis' := assign_where s.psis psis_new accepted
    let forces' := assign_where s.forces forces_new accepted
    .ok (⟨rs', psis', info⟩, ⟨rs', psis', forces', lifetime⟩)

/-- The initialization of `langevin_monte_carlo` before the loop:
evaluate forces and amplitudes at the start and zero the lifetimes. -/
def langevinInit (qf : QF) (rs : Batch) : Except LUFactError LangevinState :=
  match qf rs with
  | .error e => .error e
  | .ok fp => .ok ⟨rs, fp.2, fp.1, List.replicate rs.length 0⟩

/-- The `langevin_monte_carlo` generator, run over a finite list of
per-step random inputs: the list of yielded snapshots plus the final
state, or the first factorization failure. -/
def langevin_monte_carlo (qf : QF) (tau sqrtTau : ℚ) (texp : ℚ → ℚ) :
    LangevinState → List (Batch × List ℚ) →
    Except LUFactError (List LangevinYield × LangevinState)
  | s, [] => .ok ([], s)
  | s, i :: rest => do
    let r ← langevinStep qf tau sqrtTau texp s i.1 i.2
    let rest' ← langevin_monte_carlo qf tau sqrtTau texp r.2 rest
    pure (r.1 :: rest'.1, rest'.2)

/-! ## Metropolis kernel -/

/-- The per-step diagnostics of the Metropolis and HMC kernels. -/
structure MHInfo where
  acceptance : ℚ
deriving Repr, DecidableEq

/-- `rs_new = torch.randn_like(rs) * stepsize`: the Metropolis proposal
is the scaled Gaussian draw alone — the current position does not
appear. -/
def metropolisProposal (stepsize : ℚ) (noise : Batch) : Batch :=
  bmap (fun x => x * stepsize) noise

/-- One iteration of the `metropolis` loop body: the proposal
`rs_new = torch.randn_like(rs) * stepsize` (independent of `rs`), the
squared-amplitude acceptance ratio, the pre-update yield, and the
updated positions. -/
def metropolisStep (wf : Pos → ℚ) (stepsize : ℚ)
    (rs : Batch) (noise : Batch) (unif : List ℚ) :
    (Batch × List ℚ × MHInfo) × Batch :=
  let rs_new := metropolisProposal stepsize noise
  let psis := rs.map wf
  let Ps := List.zipWith (fun rn p => wf rn ^ 2 / p ^ 2) rs_new psis
  let accepted := List.zipWith (fun P u => decide (P > u)) Ps unif
  let info : MHInfo := ⟨acceptanceFrac accepted rs.length⟩
  ((rs, psis, info), assign_where rs rs_new accepted)

/-- The `metropolis` generator, run over a finite list of per-step
random inputs, returning the yielded snapshots in order. -/
def metropolis (wf : Pos → ℚ) (stepsize : ℚ) :
    Batch → List (Batch × List ℚ) → List (Batch × List ℚ × MHInfo)
  | _, [] => []
  | rs, i :: rest =>
    let r := metropolisStep wf stepsize rs i.1 i.2
    r.1 :: metropolis wf stepsize r.2 rest

/-- The state the Metropolis chain reaches after consuming a list of
per-step random inputs. -/
def metropolisState (wf : Pos → ℚ) (stepsize : ℚ) (rs : Batch)
    (ins : List (Batch × List ℚ)) : Batch :=
  ins.foldl (fun r i => (metropolisStep wf stepsize r i.1 i.2).2) rs

/-! ## Hamiltonian Monte Carlo (`dynamics`, `hmc`) -/

/-- The `dynamics` leapfrog integrator: first half-step
`v = vel + stepsize * forces`, `p = pos + stepsize * v`; then the loop
`for _ in range(1, steps)` doing `v += stepsize * 2 * forces(p)`,
`p += stepsize * v`; then the final half-step
`v = v + stepsize * forces(p)`.  Returns `(p_te, v_te, vel)`.  The
`pos.detach().clone()` of the source only severs the autodiff graph and
is the identity on values. -/
def dynamics (qf : QF) (pos : Batch) (stepsize : ℚ) (steps : ℕ)
    (vel : Batch) : Except LUFactError (Batch × Batch × Batch) := do
  let fp ← qf pos
  let v0 := bzip (fun a b => a + b) vel (bscale stepsize fp.1)
  let p0 := bzip (fun a b => a + b) pos (bscale stepsize v0)
  let pv ← (List.range (steps - 1)).foldlM
    (fun (pv : Batch × Batch) _ => do
      let fp ← qf pv.1
      let v := bzip (fun a b => a + b) pv.2 (bscale (stepsize * 2) fp.1)
      pure (bzip (fun a b => a + b) pv.1 (bscale stepsize v), v)) (p0, v0)
  let fp ← qf pv.1
  pure (pv.1, bzip (fun a b => a + b) pv.2 (bscale stepsize fp.1), vel)

/-- One iteration of the `hmc` loop body: run `dynamics`, compute the
kinetic-energy-corrected squared-amplitude acceptance probability,
yield the pre-update snapshot, and update the positions only. -/
def hmcStep (qf : QF) (wf : Pos → ℚ) (dysteps : ℕ) (stepsize : ℚ)
    (texp : ℚ → ℚ) (rs : Batch) (vel : Batch) (unif : List ℚ) :
    Except LUFactError ((Batch × List ℚ × MHInfo) × Batch) := do
  let d ← dynamics qf rs stepsize dysteps vel
  let rs_new := d.1
  let psis := rs.map wf
  let Ps := List.zipWith (fun pr k => pr * k)
    (List.zipWith (fun rn p => wf rn ^ 2 / p ^ 2) rs_new psis)
    (List.zipWith (fun vf v0 => texp (-(1 / 2 : ℚ) * (sq2sum vf - sq2sum v0))) d.2.1 d.2.2)
  let accepted := List.zipWith (fun P u => decide (P > u)) Ps unif
  let info : MHInfo := ⟨acceptanceFrac accepted rs.length⟩
  pure ((rs, psis, info), assign_where rs rs_new accepted)

/-- The `hmc` generator, run over a finite list of per-step velocity
draws and uniform draws, returning the yielded snapshots in order. -/
def hmc (qf : QF) (wf : Pos → ℚ) (dysteps : ℕ) (stepsize : ℚ)
    (texp : ℚ → ℚ) :
    Batch → List (Batch × List ℚ) →
    Except LUFactError (List (Batch × List ℚ × MHInfo) × Batch)
  | rs, [] => .ok ([], rs)
  | rs, i :: rest => do
    let r ← hmcStep qf wf dysteps stepsize texp rs i.1 i.2
    let rest' ← hmc qf wf dysteps stepsize texp r.2 rest
    pure (r.1 :: rest'.1, rest'.2)

/-! ## Trajectory assembler (`samples_from`) -/

/-- `torch.stack(ts, dim=1)` for a list of equal-length batches: the
walker axis stays first and the stacked time axis becomes second, so
`(stackDim1 ts)[w][t] = ts[t][w]`.  Ragged inputs (which `torch.stack`
rejects) are truncated to the shortest batch. -/
def stackDim1 {α : Type} : List (List α) → List (List α)
  | [] => []
  | [b] => b.map (fun x => [x])
  | b :: rest => List.zipWith (fun x row => x :: row) b (stackDim1 rest)

/-- `samples_from(sampler, steps, n_discard=…, n_decorrelate=…)`:
pair the index iterable with the sampler stream, keep the steps with
`i >= n_discard and i % (n_decorrelate + 1) == 0`, and stack positions
and amplitudes along a new time axis (`dim=1`), collecting the
diagnostics in retained order.  The `zip(*(…))` unpacking of the source
raises on an empty retained set, modelled by `none`. -/
def samples_from {α β γ : Type} (sampler : List (List α × List β × γ))
    (steps : List ℕ) (n_discard n_decorrelate : ℕ) :
    Option (List (List α) × List (List β) × List γ) :=
  let kept := ((steps.zip sampler).filter
    (fun p => decide (p.1 ≥ n_discard) && decide (p.1 % (n_decorrelate + 1) = 0))).map
    (fun p => p.2)
  match kept with
  | [] => none
  | _ => some (stackDim1 (kept.map (fun s => s.1)),
               stackDim1 (kept.map (fun s => s.2.1)),
               kept.map (fun s => s.2.2))

/-! ## Geometry-based walker initializer (`take`, `sample_start`) -/

/-- The chunks assembled by `take`'s loop: one full
`np.random.choice(a, len(a), replace=False)` draw per iteration of
`while n > len(a)`, then a final `np.random.choice(a, n, replace=False)`
of the remaining count.  `choice k a` models the `k`-th draw as a
reshuffling of `a`, of which the final chunk keeps the first `n`
elements.  (The source loops forever when `a` is empty and
`n > len(a)`; the extra `0 < a.length` guard keeps the model total.) -/
def takeChunks (choice : ℕ → List ℕ → List ℕ) (a : List ℕ) :
    ℕ → ℕ → List (List ℕ)
  | k, n =>
    if _h : a.length < n ∧ 0 < a.length then
      choice k a :: takeChunks choice a (k + 1) (n - a.length)
    else
      [(choice k a).take n]
termination_by _ n => n
decreasing_by omega

/-- `take(a, n)`: draw `n` elements from `a` without replacement across
repeated full passes, then permute the concatenation
(`np.random.permutation(np.concatenate(l))`, modelled by the oracle
`perm`). -/
def take (choice : ℕ → List ℕ → List ℕ) (perm : List ℕ → List ℕ)
    (a : List ℕ) (n : ℕ) : List ℕ :=
  perm (takeChunks choice a 0 n).flatten

/-- `np.repeat(np.arange(0, len(charges)), charges)`: each atom index
repeated according to its integer charge. -/
def arangeRepeat (charges : List ℕ) : List ℕ :=
  ((List.range charges.length).zip charges).flatMap
    (fun p => List.replicate p.2 p.1)

/-- `sample_start(geom, n_walker, n_electrons, var)`: one
charge-weighted `take` assignment per walker, positions =
`randn(n_walker, n_electrons, 3) * var` plus the assigned atom's
coordinates.  `choice w` and `perm w` are walker `w`'s random-choice
oracles and `noise` its Gaussian draw. -/
def sample_start (choice : ℕ → ℕ → List ℕ → List ℕ)
    (perm : ℕ → List ℕ → List ℕ) (coords : List Vec) (charges : List ℕ)
    (n_walker n_electrons : ℕ) (var : ℚ) (noise : Batch) : Batch :=
  let ind := (List.range n_walker).map
    (fun w => take (choice w) (perm w) (arangeRepeat charges) n_electrons)
  let centers : Batch := ind.map (fun row => row.map (fun i => coords.getD i []))
  bzip (fun x c => x * var + c) noise centers

/-! ## Mean-field-based walker initializer (`rand_from_mf`) -/

/-- `torch.round`: round to the nearest integer, ties to even. -/
def roundTE (q : ℚ) : ℤ :=
  let f := ⌊q⌋
  let r := q - f
  if r < 1 / 2 then f
  else if 1 / 2 < r then f + 1
  else if Even f then f else f + 1

/-- The rounded per-row occupation counts of `rand_from_mf`:
`cs = (charges - pop) + charge_std * randn(bs, n_atoms)` row by row,
then `(cs / cs.sum(dim=-1)[:, None] * n_electrons).round()`. -/
def mfRepeats (charges : List ℤ) (pop : List ℚ) (nElec : ℤ)
    (charge_std : ℚ) (noiseC : List (List ℚ)) : List (List ℤ) :=
  let cs0 := List.zipWith (fun (c : ℤ) (p : ℚ) => (c : ℚ) - p) charges pop
  noiseC.map (fun row =>
    let cs := List.zipWith (fun c x => c + charge_std * x) cs0 row
    cs.map (fun x => roundTE (x / cs.sum * (nElec : ℚ))))

/-- The flattened atom-index assignment of `rand_from_mf`:
`torch.repeat_interleave(torch.arange(n_atoms).expand(bs, -1),
repeats.flatten())` — row-major over (batch row, atom), each atom index
repeated by its rounded occupation count. -/
def mfFlatIdxs (n_atoms : ℕ) (repeats : List (List ℤ)) : List ℕ :=
  ((repeats.map (fun row => (List.range n_atoms).zip row)).flatten).flatMap
    (fun p => List.replicate p.2.toNat p.1)

/-- `rand_from_mf(mf, bs, charge_std, elec_std)` with the mean-field
reference unpacked into its consulted fields (`mol.atom_charges()`,
`mol.charge`, `mf.pop(verbose=0)[1]`, `mol.atom_coords()`) and the two
Gaussian draws passed explicitly.  `torch.repeat_interleave` rejects
negative repeat counts and `.view(bs, n_electrons)` rejects a total
element count other than `bs * n_electrons`; both failures are `none`. -/
def rand_from_mf (charges : List ℤ) (molCharge : ℤ) (pop : List ℚ)
    (coords : List Vec) (bs : ℕ) (charge_std elec_std : ℚ)
    (noiseC : List (List ℚ)) (noiseE : Batch) : Option Batch :=
  let n_atoms := charges.length
  let n_electrons := (charges.sum - molCharge).toNat
  let repeats := mfRepeats charges pop (charges.sum - molCharge) charge_std noiseC
  if repeats.any (fun row => row.any (fun r => r < 0)) then none
  else
    let flat := mfFlatIdxs n_atoms repeats
    if flat.length = bs * n_electrons then
      let idxs := (List.range bs).map
        (fun r => (flat.drop (r * n_electrons)).take n_electrons)
      let centers : Batch := idxs.map (fun row => row.map (fun i => coords.getD i []))
      some (bzip (fun c x => c + elec_std * x) centers noiseE)
    else none

/-! ## Spec-side definitions

Definitions written from the specification's and claims' wording, to be
compared with the embedded source functions above. -/

/-- Pointwise read of a batch at walker `w`, electron `e`, coordinate
`c` (with zero defaults; the claims always use it in range). -/
def at3 (b : Batch) (w e c : ℕ) : ℚ := ((b.getD w []).getD e []).getD c 0

/-- Spec: "Accept iff a per-walker uniform draw is below this
probability." -/
def acceptMask (Ps unif : List ℚ) : List Bool :=
  List.zipWith (fun P u => decide (u < P)) Ps unif

/-- Spec: "Acceptance probability = squared-amplitude ratio
(proposal/current)", per walker. -/
def mhAcceptProb (wf : Pos → ℚ) (rs_new rs : Batch) : List ℚ :=
  List.zipWith (fun rn r => wf rn ^ 2 / wf r ^ 2) rs_new rs

/-- Spec: the symmetrized trapezoidal drift term
`Σ (F+F')·((r−r') + τ/2·(F−F'))` of one walker, summed over the
electron and spatial axes. -/
def trapezoidLogG (tau : ℚ) (r r' F F' : Pos) : ℚ :=
  psum (pzip (fun x y => x * y)
    (pzip (fun x y => x + y) F F')
    (pzip (fun d e => d + tau / 2 * e)
      (pzip (fun x y => x - y) r r')
      (pzip (fun x y => x - y) F F')))

/-- Spec: the Langevin acceptance probabilities, per walker:
`exp(correction) × squared-amplitude ratio (new/old)`. -/
def langevinPs (texp : ℚ → ℚ) (tau : ℚ) (rs rs_new forces forces_new : Batch)
    (psis_new psis : List ℚ) : List ℚ :=
  List.zipWith (fun g r => texp g * r)
    (langevinLogG rs rs_new forces forces_new tau)
    (List.zipWith (fun pn p => pn ^ 2 / p ^ 2) psis_new psis)

/-- Spec: the first leapfrog half-step — `v = v0 + stepsize·F(pos)`,
`p = pos + stepsize·v`.  Returns `(p, v)`. -/
def leapfrogFirst (F : Batch → Batch) (stepsize : ℚ) (pos vel : Batch) :
    Batch × Batch :=
  let v := bzip (fun a b => a + b) vel (bscale stepsize (F pos))
  (bzip (fun a b => a + b) pos (bscale stepsize v), v)

/-- Spec: one interior leapfrog step — `v = v + 2·stepsize·F(p)`,
`p = p + stepsize·v`. -/
def leapfrogInterior (F : Batch → Batch) (stepsize : ℚ)
    (pv : Batch × Batch) : Batch × Batch :=
  let v := bzip (fun a b => a + b) pv.2 (bscale (2 * stepsize) (F pv.1))
  (bzip (fun a b => a + b) pv.1 (bscale stepsize v), v)

/-- Spec: the final leapfrog half-step — `v_final = v + stepsize·F(p)`. -/
def leapfrogFinalVel (F : Batch → Batch) (stepsize : ℚ)
    (pv : Batch × Batch) : Batch :=
  bzip (fun a b => a + b) pv.2 (bscale stepsize (F pv.1))

/-- Spec: the whole leapfrog trajectory up to the final half-step — the
first half-step followed by exactly `steps − 1` interior steps. -/
def leapfrogIntegrate (F : Batch → Batch) (stepsize : ℚ) (steps : ℕ)
    (pos vel : Batch) : Batch × Batch :=
  (leapfrogInterior F stepsize)^[steps - 1] (leapfrogFirst F stepsize pos vel)

/-- Spec: the HMC acceptance probabilities, per walker:
`(ψ(p_end)²/ψ(pos)²) · exp(−½(‖v_final‖² − ‖v0‖²))` with the squared
norms summed over the electron and spatial axes. -/
def hmcPs (wf : Pos → ℚ) (texp : ℚ → ℚ) (rs_new rs v v0 : Batch) : List ℚ :=
  List.zipWith (fun pr k => pr * k)
    (mhAcceptProb wf rs_new rs)
    (List.zipWith (fun vf w0 => texp (-(1 / 2 : ℚ) * (sq2sum vf - sq2sum w0))) v v0)

/-- Spec: the number of consecutive rejected steps since the last
acceptance — the length of the all-`false` suffix of the per-walker
accept/reject trace. -/
def trailingRejects (trace : List Bool) : ℕ :=
  (trace.reverse.takeWhile (fun a => !a)).length

/-- The synthetic kernel stream of the spec's trajectory-assembler
test: the step index serves as both the (one-walker) position and
amplitude, and also as its own diagnostics record. -/
def syntheticStream (n : ℕ) : List (List ℚ × List ℚ × ℕ) :=
  (List.range n).map (fun i => (([((i : ℕ) : ℚ)] : List ℚ), ([((i : ℕ) : ℚ)] : List ℚ), i))

/-! ## Helper lemmas -/

theorem getD_zipWith_of_lt {α β γ : Type} (f : α → β → γ) (a : List α)
    (b : List β) (i : ℕ) (d : γ) (da : α) (db : β)
    (ha : i < a.length) (hb : i < b.length) :
    (List.zipWith f a b).getD i d = f (a.getD i da) (b.getD i db) := by
  have hi : i < (List.zipWith f a b).length := by
    rw [List.length_zipWith]; omega
  rw [List.getD_eq_getElem?_getD, List.getD_eq_getElem?_getD,
    List.getD_eq_getElem?_getD, List.getElem?_eq_getElem hi,
    List.getElem?_eq_getElem ha, List.getElem?_eq_getElem hb]
  simp

theorem getD_map_of_lt {α β : Type} (f : α → β) (a : List α) (i : ℕ)
    (d : β) (da : α) (ha : i < a.length) :
    (a.map f).getD i d = f (a.getD i da) := by
  have hi : i < (a.map f).length := by simpa using ha
  rw [List.getD_eq_getElem?_getD, List.getD_eq_getElem?_getD,
    List.getElem?_eq_getElem hi, List.getElem?_eq_getElem ha]
  simp

theorem HasShape.len {b : Batch} {W E : ℕ} (h : HasShape b W E) :
    b.length = W := h.1

theorem HasShape.row_len {b : Batch} {W E w : ℕ} (h : HasShape b W E)
    (hw : w < W) : (b.getD w []).length = E := by
  have hwb : w < b.length := by rw [h.len]; exact hw
  rw [List.getD_eq_getElem?_getD, List.getElem?_eq_getElem hwb]
  exact (h.2 _ (List.getElem_mem hwb)).1

theorem getD_of_lt {α : Type} (l : List α) (d : α) {i : ℕ}
    (hi : i < l.length) : l.getD i d = l[i] := by
  rw [List.getD_eq_getElem?_getD, List.getElem?_eq_getElem hi]; rfl

theorem HasShape.vec_len {b : Batch} {W E w e : ℕ} (h : HasShape b W E)
    (hw : w < W) (he : e < E) : ((b.getD w []).getD e []).length = 3 := by
  have hwb : w < b.length := by rw [h.len]; exact hw
  rw [getD_of_lt b [] hwb]
  have hrow : e < b[w].length := by
    have h2 := h.row_len hw
    rw [getD_of_lt b [] hwb] at h2
    omega
  rw [getD_of_lt _ [] hrow]
  exact (h.2 _ (List.getElem_mem hwb)).2 _ (List.getElem_mem hrow)

theorem at3_bzip {f : ℚ → ℚ → ℚ} {a b : Batch} {W E : ℕ}
    (ha : HasShape a W E) (hb : HasShape b W E) {w e c : ℕ}
    (hw : w < W) (he : e < E) (hc : c < 3) :
    at3 (bzip f a b) w e c = f (at3 a w e c) (at3 b w e c) := by
  unfold at3 bzip pzip vzip
  rw [getD_zipWith_of_lt _ a b w [] [] []
      (by rw [ha.len]; exact hw) (by rw [hb.len]; exact hw),
    getD_zipWith_of_lt _ _ _ e [] [] []
      (by rw [ha.row_len hw]; exact he) (by rw [hb.row_len hw]; exact he),
    getD_zipWith_of_lt _ _ _ c 0 0 0
      (by rw [ha.vec_len hw he]; exact hc) (by rw [hb.vec_len hw he]; exact hc)]

theorem at3_bmap {f : ℚ → ℚ} {a : Batch} {W E : ℕ}
    (ha : HasShape a W E) {w e c : ℕ}
    (hw : w < W) (he : e < E) (hc : c < 3) :
    at3 (bmap f a) w e c = f (at3 a w e c) := by
  unfold at3 bmap pmap
  rw [getD_map_of_lt _ a w [] [] (by rw [ha.len]; exact hw),
    getD_map_of_lt _ _ e [] [] (by rw [ha.row_len hw]; exact he),
    getD_map_of_lt _ _ c 0 0 (by rw [ha.vec_len hw he]; exact hc)]

/-! ## C3 — Metropolis kernel -/

/-- **C3**: every Metropolis iteration proposes
`rs_new = noise * stepsize` — the proposal value does not depend on the
walker's current position (an independence proposal, not a displacement
centered on it) — its acceptance probability is exactly
`wf(rs_new)² / wf(rs)²` with no Hastings correction factor, a walker is
accepted iff its per-walker uniform draw lies strictly below this
ratio, and the yielded pre-update snapshot and updated positions are as
in the source. -/
theorem metropolis_kernel_contract (wf : Pos → ℚ) (stepsize : ℚ)
    (rs noise : Batch) (unif : List ℚ) (W E : ℕ)
    (hn : HasShape noise W E) :
    metropolisStep wf stepsize rs noise unif =
      ((rs, rs.map wf,
        ⟨acceptanceFrac
          (acceptMask (mhAcceptProb wf (metropolisProposal stepsize noise) rs) unif)
          rs.length⟩),
       assign_where rs (metropolisProposal stepsize noise)
         (acceptMask (mhAcceptProb wf (metropolisProposal stepsize noise) rs) unif)) ∧
    (∀ w e c, w < W → e < E → c < 3 →
      at3 (metropolisProposal stepsize noise) w e c = at3 noise w e c * stepsize) := by
  constructor
  · simp [metropolisStep, acceptMask, mhAcceptProb, List.zipWith_map_right]
  · intro w e c hw he hc
    unfold metropolisProposal
    exact at3_bmap hn hw he hc

/-- Witness for C3 at a concrete input: one walker, one electron,
noise `[1, 2, 3]`, stepsize `2`. -/
theorem metropolis_kernel_contract_witness :
    at3 (metropolisProposal 2 [[[1, 2, 3]]]) 0 0 1 = at3 [[[1, 2, 3]]] 0 0 1 * 2 :=
  (metropolis_kernel_contract (fun _ => 1) 2 [[[1, 1, 1]]] [[[1, 2, 3]]] [0] 1 1
    (by decide)).2 0 0 1 (by decide) (by decide) (by decide)

/-! ## Monadic reduction helpers -/

theorem ok_bind {α β : Type} (a : α) (k : α → Except LUFactError β) :
    (Except.ok a >>= k) = k a := rfl

theorem foldlM_ok {α β : Type} (F : α → β → Except LUFactError α)
    (g : α → α) (h : ∀ a b, F a b = .ok (g a)) (l : List β) (init : α) :
    l.foldlM F init = .ok (g^[l.length] init) := by
  induction l generalizing init with
  | nil => rfl
  | cons b t ih =>
    rw [List.foldlM_cons, h init b, ok_bind, ih (g init),
      List.length_cons, Function.iterate_succ_apply]

/-- `dynamics` with a total force evaluator computes exactly the
spec-side leapfrog integration. -/
theorem dynamics_liftQF (f : Batch → Batch × List ℚ) (pos : Batch)
    (stepsize : ℚ) (steps : ℕ) (vel : Batch) :
    dynamics (liftQF f) pos stepsize steps vel =
      .ok ((leapfrogIntegrate (fun b => (f b).1) stepsize steps pos vel).1,
           leapfrogFinalVel (fun b => (f b).1) stepsize
             (leapfrogIntegrate (fun b => (f b).1) stepsize steps pos vel),
           vel) := by
  have hbody : ∀ (pv : Batch × Batch) (b : ℕ),
      (pure (bzip (fun a b => a + b) pv.1
          (bscale stepsize (bzip (fun a b => a + b) pv.2
            (bscale (stepsize * 2) (f pv.1).1))),
        bzip (fun a b => a + b) pv.2 (bscale (stepsize * 2) (f pv.1).1)) :
        Except LUFactError (Batch × Batch)) =
      .ok (leapfrogInterior (fun b => (f b).1) stepsize pv) := by
    intro pv b
    unfold leapfrogInterior
    rw [mul_comm 2 stepsize]
    rfl
  unfold dynamics
  simp only [liftQF, ok_bind]
  rw [foldlM_ok _ _ hbody, ok_bind]
  rw [List.length_range]
  rfl

/-! ## C2 — Hamiltonian Monte Carlo -/

/-- **C2**: each HMC iteration integrates the proposal by leapfrog from
the starting position and the fresh velocity draw — the first
half-step `v = v0 + stepsize·F(pos)`, `p = pos + stepsize·v`, then
exactly `dysteps − 1` interior steps with the doubled velocity
increment `v = v + 2·stepsize·F(p)`, `p = p + stepsize·v`, then the
final half-step `v_final = v + stepsize·F(p)` — and accepts each
walker with probability `(ψ(p_end)²/ψ(pos)²)·exp(−½(‖v_final‖² −
‖v0‖²))` (norms summed over the electron and spatial axes), accepting
iff the per-walker uniform draw lies below it, and applies the
conditional assignment to the position tensor only. -/
theorem hmc_leapfrog_contract (f : Batch → Batch × List ℚ) (wf : Pos → ℚ)
    (dysteps : ℕ) (stepsize : ℚ) (texp : ℚ → ℚ) (rs vel : Batch)
    (unif : List ℚ) :
    dynamics (liftQF f) rs stepsize dysteps vel =
      .ok ((leapfrogIntegrate (fun b => (f b).1) stepsize dysteps rs vel).1,
           leapfrogFinalVel (fun b => (f b).1) stepsize
             (leapfrogIntegrate (fun b => (f b).1) stepsize dysteps rs vel),
           vel) ∧
    hmcStep (liftQF f) wf dysteps stepsize texp rs vel unif =
      .ok ((rs, rs.map wf,
        ⟨acceptanceFrac
          (acceptMask
            (hmcPs wf texp
              (leapfrogIntegrate (fun b => (f b).1) stepsize dysteps rs vel).1 rs
              (leapfrogFinalVel (fun b => (f b).1) stepsize
                (leapfrogIntegrate (fun b => (f b).1) stepsize dysteps rs vel))
              vel)
            unif)
          rs.length⟩),
       assign_where rs
         (leapfrogIntegrate (fun b => (f b).1) stepsize dysteps rs vel).1
         (acceptMask
           (hmcPs wf texp
             (leapfrogIntegrate (fun b => (f b).1) stepsize dysteps rs vel).1 rs
             (leapfrogFinalVel (fun b => (f b).1) stepsize
               (leapfrogIntegrate (fun b => (f b).1) stepsize dysteps rs vel))
             vel)
           unif)) := by
  refine ⟨dynamics_liftQF f rs stepsize dysteps vel, ?_⟩
  unfold hmcStep
  rw [dynamics_liftQF, ok_bind]
  simp only [hmcPs, mhAcceptProb, acceptMask, List.zipWith_map_right]
  rfl

/-! ## C4 — yield timing asymmetry -/

/-- **C4**: Metropolis and HMC yield the pre-update (position,
amplitude) snapshot — so the k-th yielded sample reflects the previous
steps' acceptance decisions — while Langevin applies the joint
conditional assignment of positions, amplitudes and forces under one
mask first and yields the post-update snapshot of the same step. -/
theorem yield_timing_asymmetry (wf : Pos → ℚ) (stepsize tau sqrtTau : ℚ)
    (texp : ℚ → ℚ) (f : Batch → Batch × List ℚ) (dysteps : ℕ)
    (rs noise vel : Batch) (unif : List ℚ) (s : LangevinState) :
    ((metropolisStep wf stepsize rs noise unif).1.1 = rs ∧
     (metropolisStep wf stepsize rs noise unif).1.2.1 = rs.map wf) ∧
    (∀ (pre : List (Batch × List ℚ)) (i : Batch × List ℚ)
        (post : List (Batch × List ℚ)),
      (metropolis wf stepsize rs (pre ++ i :: post))[pre.length]? =
        some (metropolisStep wf stepsize
          (metropolisState wf stepsize rs pre) i.1 i.2).1) ∧
    ((hmcStep (liftQF f) wf dysteps stepsize texp rs vel unif).map
        (fun p => (p.1.1, p.1.2.1)) = .ok (rs, rs.map wf)) ∧
    ((langevinStep (liftQF f) tau sqrtTau texp s noise unif).map
        (fun p => (p.1.rs, p.1.psis)) =
      (langevinStep (liftQF f) tau sqrtTau texp s noise unif).map
        (fun p => (p.2.rs, p.2.psis))) ∧
    (∃ accepted : List Bool,
      (langevinStep (liftQF f) tau sqrtTau texp s noise unif).map
          (fun p => p.1.rs) =
        .ok (assign_where s.rs
          (langevinProposal s.rs s.forces noise tau sqrtTau) accepted) ∧
      (langevinStep (liftQF f) tau sqrtTau texp s noise unif).map
          (fun p => p.1.psis) =
        .ok (assign_where s.psis
          (f (langevinProposal s.rs s.forces noise tau sqrtTau)).2 accepted) ∧
      (langevinStep (liftQF f) tau sqrtTau texp s noise unif).map
          (fun p => p.2.forces) =
        .ok (assign_where s.forces
          (f (langevinProposal s.rs s.forces noise tau sqrtTau)).1 accepted)) := by
  refine ⟨⟨rfl, rfl⟩, ?_, ?_, rfl, ⟨_, rfl, rfl, rfl⟩⟩
  · intro pre i post
    induction pre generalizing rs with
    | nil => simp [metropolis, metropolisState]
    | cons j t ih =>
      show (metropolis wf stepsize rs ((j :: t) ++ i :: post))[t.length + 1]? = _
      rw [List.cons_append,
        show metropolis wf stepsize rs (j :: (t ++ i :: post)) =
          (metropolisStep wf stepsize rs j.1 j.2).1 ::
            metropolis wf stepsize (metropolisStep wf stepsize rs j.1 j.2).2
              (t ++ i :: post) from rfl,
        List.getElem?_cons_succ, ih]
      rfl
  · unfold hmcStep
    rw [dynamics_liftQF, ok_bind]
    rfl

/-! ## C1 — Langevin step formulas -/

theorem mem_zipWith {α β γ : Type} {f : α → β → γ} {a : List α}
    {b : List β} {x : γ} (hx : x ∈ List.zipWith f a b) :
    ∃ i, ∃ hia : i < a.length, ∃ hib : i < b.length,
      f a[i] b[i] = x := by
  obtain ⟨i, hi, hx⟩ := List.mem_iff_getElem.mp hx
  rw [List.getElem_zipWith] at hx
  exact ⟨i, List.lt_length_left_of_zipWith hi,
    List.lt_length_right_of_zipWith hi, hx⟩

theorem HasShape.bzip {f : ℚ → ℚ → ℚ} {a b : Batch} {W E : ℕ}
    (ha : HasShape a W E) (hb : HasShape b W E) :
    HasShape (DLQMC.bzip f a b) W E := by
  constructor
  · simp [DLQMC.bzip, List.length_zipWith, ha.len, hb.len]
  · intro p hp
    obtain ⟨i, hia, hib, rfl⟩ := mem_zipWith hp
    constructor
    · simp only [pzip, List.length_zipWith]
      rw [(ha.2 _ (List.getElem_mem hia)).1, (hb.2 _ (List.getElem_mem hib)).1]
      exact min_self E
    · intro v hv
      obtain ⟨e, hea, heb, rfl⟩ := mem_zipWith hv
      simp only [vzip, List.length_zipWith]
      rw [(ha.2 _ (List.getElem_mem hia)).2 _ (List.getElem_mem hea),
        (hb.2 _ (List.getElem_mem hib)).2 _ (List.getElem_mem heb)]
      exact min_self 3

theorem getD_bzip_of_lt (f : ℚ → ℚ → ℚ) (a b : Batch) (w : ℕ)
    (ha : w < a.length) (hb : w < b.length) :
    (bzip f a b).getD w [] = pzip f (a.getD w []) (b.getD w []) := by
  unfold bzip
  exact getD_zipWith_of_lt _ a b w [] [] [] ha hb

/-- **C1**: every Langevin iteration proposes
`rs_new = rs + forces·τ + noise·√τ` per coordinate; the log
Metropolis–Hastings correction per walker is the symmetrized
trapezoidal drift term `Σ (F+F')·((r−r') + τ/2·(F−F'))` summed over
the electron and spatial axes; the acceptance probability equals
`exp(correction) · ψ_new²/ψ_old²`; and a walker is accepted iff its
per-walker uniform draw lies strictly below this probability. -/
theorem langevin_step_formulas (f : Batch → Batch × List ℚ)
    (tau sqrtTau : ℚ) (texp : ℚ → ℚ) (s : LangevinState) (noise : Batch)
    (unif : List ℚ) (W E : ℕ) (hr : HasShape s.rs W E)
    (hf : HasShape s.forces W E) (hn : HasShape noise W E) :
    (∀ w e c, w < W → e < E → c < 3 →
      at3 (langevinProposal s.rs s.forces noise tau sqrtTau) w e c =
        at3 s.rs w e c + at3 s.forces w e c * tau +
          at3 noise w e c * sqrtTau) ∧
    (∀ (rs_new forces_new : Batch) (w : ℕ), w < W → w < rs_new.length →
        w < forces_new.length →
      (langevinLogG s.rs rs_new s.forces forces_new tau).getD w 0 =
        trapezoidLogG tau (s.rs.getD w []) (rs_new.getD w [])
          (s.forces.getD w []) (forces_new.getD w [])) ∧
    (∀ (logG psis_new psis : List ℚ) (w : ℕ), w < logG.length →
        w < psis_new.length → w < psis.length →
      (List.zipWith (fun g r => texp g * r) logG
        (List.zipWith (fun pn p => pn ^ 2 / p ^ 2) psis_new psis)).getD w 0 =
        texp (logG.getD w 0) *
          (psis_new.getD w 0 ^ 2 / psis.getD w 0 ^ 2)) ∧
    (∀ (Ps u : List ℚ) (w : ℕ), w < Ps.length → w < u.length →
      (acceptMask Ps u).getD w false =
        decide (u.getD w 0 < Ps.getD w 0)) ∧
    (langevinStep (liftQF f) tau sqrtTau texp s noise unif =
      .ok (⟨assign_where s.rs
              (langevinProposal s.rs s.forces noise tau sqrtTau)
              (acceptMask
                (langevinPs texp tau s.rs
                  (langevinProposal s.rs s.forces noise tau sqrtTau) s.forces
                  (f (langevinProposal s.rs s.forces noise tau sqrtTau)).1
                  (f (langevinProposal s.rs s.forces noise tau sqrtTau)).2
                  s.psis)
                unif),
            assign_where s.psis
              (f (langevinProposal s.rs s.forces noise tau sqrtTau)).2
              (acceptMask
                (langevinPs texp tau s.rs
                  (langevinProposal s.rs s.forces noise tau sqrtTau) s.forces
                  (f (langevinProposal s.rs s.forces noise tau sqrtTau)).1
                  (f (langevinProposal s.rs s.forces noise tau sqrtTau)).2
                  s.psis)
                unif),
            ⟨acceptanceFrac
              (acceptMask
                (langevinPs texp tau s.rs
                  (langevinProposal s.rs s.forces noise tau sqrtTau) s.forces
                  (f (langevinProposal s.rs s.forces noise tau sqrtTau)).1
                  (f (langevinProposal s.rs s.forces noise tau sqrtTau)).2
                  s.psis)
                unif)
              s.rs.length,
             List.zipWith lifetimeUpdate
              (acceptMask
                (langevinPs texp tau s.rs
                  (langevinProposal s.rs s.forces noise tau sqrtTau) s.forces
                  (f (langevinProposal s.rs s.forces noise tau sqrtTau)).1
                  (f (langevinProposal s.rs s.forces noise tau sqrtTau)).2
                  s.psis)
                unif)
              s.lifetime⟩⟩,
           ⟨assign_where s.rs
              (langevinProposal s.rs s.forces noise tau sqrtTau)
              (acceptMask
                (langevinPs texp tau s.rs
                  (langevinProposal s.rs s.forces noise tau sqrtTau) s.forces
                  (f (langevinProposal s.rs s.forces noise tau sqrtTau)).1
                  (f (langevinProposal s.rs s.forces noise tau sqrtTau)).2
                  s.psis)
                unif),
            assign_where s.psis
              (f (langevinProposal s.rs s.forces noise tau sqrtTau)).2
              (acceptMask
                (langevinPs texp tau s.rs
                  (langevinProposal s.rs s.forces noise tau sqrtTau) s.forces
                  (f (langevinProposal s.rs s.forces noise tau sqrtTau)).1
                  (f (langevinProposal s.rs s.forces noise tau sqrtTau)).2
                  s.psis)
                unif),
            assign_where s.forces
              (f (langevinProposal s.rs s.forces noise tau sqrtTau)).1
              (acceptMask
                (langevinPs texp tau s.rs
                  (langevinProposal s.rs s.forces noise tau sqrtTau) s.forces
                  (f (langevinProposal s.rs s.forces noise tau sqrtTau)).1
                  (f (langevinProposal s.rs s.forces noise tau sqrtTau)).2
                  s.psis)
                unif),
            List.zipWith lifetimeUpdate
              (acceptMask
                (langevinPs texp tau s.rs
                  (langevinProposal s.rs s.forces noise tau sqrtTau) s.forces
                  (f (langevinProposal s.rs s.forces noise tau sqrtTau)).1
                  (f (langevinProposal s.rs s.forces noise tau sqrtTau)).2
                  s.psis)
                unif)
              s.lifetime⟩)) := by
  refine ⟨?_, ?_, ?_, ?_, rfl⟩
  · intro w e c hw he hc
    unfold langevinProposal
    rw [at3_bzip (hr.bzip hf) hn hw he hc, at3_bzip hr hf hw he hc]
  · intro rs_new forces_new w hw h1 h2
    have hrl : w < s.rs.length := by rw [hr.len]; exact hw
    have hfl : w < s.forces.length := by rw [hf.len]; exact hw
    unfold langevinLogG
    rw [getD_map_of_lt psum _ w 0 []
      (by simp only [bzip, List.length_zipWith]; omega)]
    rw [getD_bzip_of_lt _ _ _ w
        (by simp only [bzip, List.length_zipWith]; omega)
        (by simp only [bzip, List.length_zipWith]; omega),
      getD_bzip_of_lt _ _ _ w hfl h2,
      getD_bzip_of_lt _ _ _ w
        (by simp only [bzip, List.length_zipWith]; omega)
        (by simp only [bzip, List.length_zipWith]; omega),
      getD_bzip_of_lt _ _ _ w hrl h1,
      getD_bzip_of_lt _ _ _ w hfl h2]
    rfl
  · intro logG psis_new psis w h1 h2 h3
    rw [getD_zipWith_of_lt _ _ _ w 0 0 0 h1
        (by simp only [List.length_zipWith]; omega),
      getD_zipWith_of_lt _ _ _ w 0 0 0 h2 h3]
  · intro Ps u w h1 h2
    unfold acceptMask
    rw [getD_zipWith_of_lt _ _ _ w false 0 0 h1 h2]

/-- Witness for C1 at a concrete input: one walker, one electron,
`rs = [[0,0,0]]`, `forces = [[1,1,1]]`, `noise = [[2,2,2]]`, `τ = 4`,
`√τ = 2`. -/
theorem langevin_step_formulas_witness :
    at3 (langevinProposal [[[0, 0, 0]]] [[[1, 1, 1]]] [[[2, 2, 2]]] 4 2) 0 0 0 =
      at3 [[[0, 0, 0]]] 0 0 0 + at3 [[[1, 1, 1]]] 0 0 0 * 4 +
        at3 [[[2, 2, 2]]] 0 0 0 * 2 :=
  (langevin_step_formulas (fun b => (b, b.map (fun _ => 1))) 4 2 (fun x => x)
    ⟨[[[0, 0, 0]]], [1], [[[1, 1, 1]]], [0]⟩ [[[2, 2, 2]]] [0] 1 1
    (by decide) (by decide) (by decide)).1 0 0 0
    (by decide) (by decide) (by decide)

/-! ## C8 — Langevin lifetime counter -/

/-- **C8**: the Langevin lifetime counter starts at zero, is set to 0
on a step the walker accepts and incremented by 1 on a step it
rejects — so after every step it equals the number of consecutive
rejections since the last acceptance — and a walker rejected on three
consecutive steps and accepted on the fourth reports the lifetime
sequence [1], [2], [3], [0] in the step diagnostics. -/
theorem langevin_lifetime_counter :
    (∀ (f : Batch → Batch × List ℚ) (rs : Batch),
      (langevinInit (liftQF f) rs).map (fun s => s.lifetime) =
        .ok (List.replicate rs.length 0)) ∧
    (∀ (f : Batch → Batch × List ℚ) (tau sqrtTau : ℚ) (texp : ℚ → ℚ)
        (s : LangevinState) (noise : Batch) (unif : List ℚ),
      (langevinStep (liftQF f) tau sqrtTau texp s noise unif).map
          (fun p => p.2.lifetime) =
        .ok (List.zipWith lifetimeUpdate
          (acceptMask
            (langevinPs texp tau s.rs
              (langevinProposal s.rs s.forces noise tau sqrtTau) s.forces
              (f (langevinProposal s.rs s.forces noise tau sqrtTau)).1
              (f (langevinProposal s.rs s.forces noise tau sqrtTau)).2 s.psis)
            unif)
          s.lifetime)) ∧
    (∀ trace : List Bool,
      trace.foldl (fun l a => lifetimeUpdate a l) 0 = trailingRejects trace) ∧
    (((langevinInit
          (liftQF (fun b => (bmap (fun _ => 0) b, b.map (fun _ => 1))))
          [[[0, 0, 0]]]).bind
        (fun s => langevin_monte_carlo
          (liftQF (fun b => (bmap (fun _ => 0) b, b.map (fun _ => 1))))
          1 1 (fun _ => 1) s
          [([[[0, 0, 0]]], [1]), ([[[0, 0, 0]]], [1]),
            ([[[0, 0, 0]]], [1]), ([[[0, 0, 0]]], [0])])).map
        (fun r => r.1.map (fun y => y.info.lifetime)) =
      .ok [[1], [2], [3], [0]]) := by
  refine ⟨fun f rs => rfl, fun f tau sqrtTau texp s noise unif => rfl, ?_, by decide⟩
  intro trace
  induction trace using List.reverseRecOn with
  | nil => rfl
  | append_singleton xs a ih =>
    rw [List.foldl_append, List.foldl_cons, List.foldl_nil, ih]
    unfold trailingRejects
    rw [List.reverse_append]
    cases a <;> simp [lifetimeUpdate, List.takeWhile]

/-! ## C7 — factorization-failure propagation in the Langevin kernel -/

/-- **C7**: when the force evaluation of a Langevin proposal raises the
factorization-failure error, the kernel attaches the pre-update
positions of exactly the walkers named by the error's index payload and
re-raises the same error; the step is not retried, no kernel state is
produced for it, and the chain halts there. -/
theorem langevin_lufact_propagation (qf : QF) (tau sqrtTau : ℚ)
    (texp : ℚ → ℚ) (s : LangevinState) (noise : Batch) (unif : List ℚ)
    (e : LUFactError)
    (he : qf (langevinProposal s.rs s.forces noise tau sqrtTau) = .error e) :
    langevinStep qf tau sqrtTau texp s noise unif =
      .error ⟨e.idxs, some (indexSelect s.rs e.idxs)⟩ ∧
    ∀ (rest : List (Batch × List ℚ)),
      langevin_monte_carlo qf tau sqrtTau texp s ((noise, unif) :: rest) =
        .error ⟨e.idxs, some (indexSelect s.rs e.idxs)⟩ := by
  have h1 : langevinStep qf tau sqrtTau texp s noise unif =
      .error ⟨e.idxs, some (indexSelect s.rs e.idxs)⟩ := by
    simp only [langevinStep, he]
  refine ⟨h1, fun rest => ?_⟩
  show (langevinStep qf tau sqrtTau texp s noise unif >>= fun r =>
    langevin_monte_carlo qf tau sqrtTau texp r.2 rest >>= fun rest' =>
      pure (r.1 :: rest'.1, rest'.2)) = _
  rw [h1]
  rfl

/-- Witness for C7: a force evaluator that always fails with index
payload `[0]` makes the step halt with the pre-update position of
walker 0 attached. -/
theorem langevin_lufact_propagation_witness :
    langevinStep (fun _ => .error ⟨[0], none⟩) 1 1 (fun x => x)
        ⟨[[[1, 2, 3]]], [1], [[[0, 0, 0]]], [0]⟩ [[[0, 0, 0]]] [1] =
      .error ⟨[0], some [[[1, 2, 3]]]⟩ := by
  have h := (langevin_lufact_propagation (fun _ => .error ⟨[0], none⟩) 1 1
    (fun x => x) ⟨[[[1, 2, 3]]], [1], [[[0, 0, 0]]], [0]⟩ [[[0, 0, 0]]] [1]
    ⟨[0], none⟩ rfl).1
  rw [h]
  rfl

/-! ## C5/C6 — trajectory assembler -/

theorem stackDim1_length {α : Type} :
    ∀ (ts : List (List α)) (W : ℕ), ts ≠ [] → (∀ b ∈ ts, b.length = W) →
      (stackDim1 ts).length = W
  | [], W, hne, _ => absurd rfl hne
  | [b], W, _, hrect => by
    simp only [stackDim1, List.length_map]
    exact hrect b (by simp)
  | b :: r :: rest, W, _, hrect => by
    show (List.zipWith (fun x row => x :: row) b (stackDim1 (r :: rest))).length = W
    rw [List.length_zipWith, hrect b (by simp),
      stackDim1_length (r :: rest) W (by simp)
        (fun x hx => hrect x (List.mem_cons_of_mem _ hx))]
    exact min_self W

theorem stackDim1_getElem? {α : Type} :
    ∀ (ts : List (List α)) (W : ℕ), (∀ b ∈ ts, b.length = W) → ∀ (w t : ℕ),
      ((stackDim1 ts)[w]?.bind (fun row => row[t]?)) =
        (ts[t]?.bind (fun x => x[w]?))
  | [], _, _, w, t => by cases t <;> rfl
  | [b], W, hrect, w, t => by
    show ((b.map (fun x => [x]))[w]?.bind (fun row => row[t]?)) = _
    rw [List.getElem?_map]
    cases hbw : b[w]? with
    | none =>
      cases t with
      | zero => simp [hbw]
      | succ t' => simp
    | some x =>
      cases t with
      | zero => simp [hbw]
      | succ t' => simp [hbw]
  | b :: r :: rest, W, hrect, w, t => by
    have hb : b.length = W := hrect b (by simp)
    have hrect' : ∀ x ∈ r :: rest, x.length = W :=
      fun x hx => hrect x (List.mem_cons_of_mem _ hx)
    have hS : (stackDim1 (r :: rest)).length = W :=
      stackDim1_length (r :: rest) W (by simp) hrect'
    have ih := stackDim1_getElem? (r :: rest) W hrect' w
    show ((List.zipWith (fun x row => x :: row) b
        (stackDim1 (r :: rest)))[w]?.bind (fun row => row[t]?)) =
      (((b :: r :: rest) : List (List α))[t]?.bind (fun x => x[w]?))
    rcases Nat.lt_or_ge w W with hw | hw
    · have hbw : w < b.length := by omega
      have hSw : w < (stackDim1 (r :: rest)).length := by omega
      rw [List.getElem?_zipWith, List.getElem?_eq_getElem hbw,
        List.getElem?_eq_getElem hSw]
      cases t with
      | zero => simp
      | succ t' =>
        have h2 := ih t'
        rw [List.getElem?_eq_getElem hSw] at h2
        simp only [Option.some_bind] at h2
        simpa using h2
    · have hbw : b[w]? = none := List.getElem?_eq_none (by omega)
      have hSw : (stackDim1 (r :: rest))[w]? = none :=
        List.getElem?_eq_none (by omega)
      rw [List.getElem?_zipWith, hbw, hSw]
      cases t with
      | zero => simp [hbw]
      | succ t' =>
        have h2 := ih t'
        rw [hSw] at h2
        simp only [Option.none_bind] at h2
        rw [List.getElem?_cons_succ, ← h2]
        rfl

/-- **C6**: the trajectory assembler retains exactly the steps whose
index satisfies `i ≥ n_discard` and `i % (n_decorrelate+1) == 0`,
stacks the retained positions and amplitudes along a new time axis in
retained order (`out[w][t] = kept[t][w]`), collects the diagnostics in
retained order, and fails (`none`) precisely when the retained set is
empty. -/
theorem samples_from_contract {α β γ : Type}
    (sampler : List (List α × List β × γ)) (steps : List ℕ) (nd ndc : ℕ) :
    (∀ p, p ∈ (steps.zip sampler).filter
        (fun q => decide (q.1 ≥ nd) && decide (q.1 % (ndc + 1) = 0)) ↔
      p ∈ steps.zip sampler ∧ nd ≤ p.1 ∧ p.1 % (ndc + 1) = 0) ∧
    (samples_from sampler steps nd ndc = none ↔
      (steps.zip sampler).filter
        (fun q => decide (q.1 ≥ nd) && decide (q.1 % (ndc + 1) = 0)) = []) ∧
    (∀ kept, kept = ((steps.zip sampler).filter
        (fun q => decide (q.1 ≥ nd) && decide (q.1 % (ndc + 1) = 0))).map
        (fun q => q.2) → kept ≠ [] →
      samples_from sampler steps nd ndc =
        some (stackDim1 (kept.map (fun s => s.1)),
              stackDim1 (kept.map (fun s => s.2.1)),
              kept.map (fun s => s.2.2))) ∧
    (∀ (ts : List (List α)) (W : ℕ), (∀ b ∈ ts, b.length = W) →
      ∀ (w t : ℕ),
        ((stackDim1 ts)[w]?.bind (fun row => row[t]?)) =
          (ts[t]?.bind (fun x => x[w]?))) := by
  refine ⟨?_, ?_, ?_, fun ts W hrect w t => stackDim1_getElem? ts W hrect w t⟩
  · intro p
    simp [List.mem_filter]
  · unfold samples_from
    cases hk : ((steps.zip sampler).filter
        (fun q => decide (q.1 ≥ nd) && decide (q.1 % (ndc + 1) = 0))).map
        (fun q => q.2) with
    | nil =>
      simp only [hk]
      constructor
      · intro
        exact List.map_eq_nil_iff.mp hk
      · intro
        trivial
    | cons a l =>
      simp only [hk]
      constructor
      · intro h
        exact absurd h (by simp)
      · intro h
        rw [h] at hk
        exact absurd hk (by simp)
  · intro kept hkept hne
    unfold samples_from
    rw [← hkept]
    cases kept with
    | nil => exact absurd rfl hne
    | cons a l => rfl

/-- Witness for C6 at a concrete input: a one-step stream retained in
full. -/
theorem samples_from_contract_witness :
    samples_from [([(1 : ℚ)], [(2 : ℚ)], (0 : ℕ))] [0] 0 0 =
      some (stackDim1 ([([(1 : ℚ)], [(2 : ℚ)], (0 : ℕ))].map (fun s => s.1)),
            stackDim1 ([([(1 : ℚ)], [(2 : ℚ)], (0 : ℕ))].map (fun s => s.2.1)),
            [([(1 : ℚ)], [(2 : ℚ)], (0 : ℕ))].map (fun s => s.2.2)) :=
  (samples_from_contract [([(1 : ℚ)], [(2 : ℚ)], (0 : ℕ))] [0] 0 0).2.2.1
    [([(1 : ℚ)], [(2 : ℚ)], (0 : ℕ))] rfl (by simp)

/-- Counterexample for **C5**: on the synthetic 20-step stream with
`n_discard = 5` and `n_decorrelate = 1` the assembler retains the steps
{6, 8, 10, 12, 14, 16, 18} — not {5, 7, 9, 11, 13, 15, 17, 19} as the
claim states. -/
theorem samples_from_example_refuted :
    (samples_from (syntheticStream 20) (List.range 20) 5 1).map
        (fun r => r.2.2) = some [6, 8, 10, 12, 14, 16, 18] ∧
    ([6, 8, 10, 12, 14, 16, 18] : List ℕ) ≠ [5, 7, 9, 11, 13, 15, 17, 19] := by
  constructor
  · rfl
  · decide

/-- Amended **C5**: on the synthetic 20-step stream with
`n_discard = 5` and `n_decorrelate = 1` the retained indices are
exactly {6, 8, 10, 12, 14, 16, 18}, the stacked positions and
amplitudes list them in this (ascending) order, and the index list is
strictly increasing. -/
theorem samples_from_example_amended :
    samples_from (syntheticStream 20) (List.range 20) 5 1 =
      some ([[6, 8, 10, 12, 14, 16, 18]], [[6, 8, 10, 12, 14, 16, 18]],
            [6, 8, 10, 12, 14, 16, 18]) ∧
    List.Pairwise (· < ·) [6, 8, 10, 12, 14, 16, 18] := by
  constructor
  · rfl
  · decide

/-! ## C9 — geometry-based walker initializer -/

theorem takeChunks_flatten_length (choice : ℕ → List ℕ → List ℕ)
    (a : List ℕ) (hc : ∀ k, (choice k a).length = a.length)
    (ha : 0 < a.length) :
    ∀ n k, ((takeChunks choice a k n).flatten).length = n := by
  intro n
  induction n using Nat.strong_induction_on with
  | _ n ih =>
    intro k
    unfold takeChunks
    by_cases h : a.length < n ∧ 0 < a.length
    · rw [dif_pos h]
      rw [List.flatten_cons, List.length_append, hc k,
        ih (n - a.length) (by omega) (k + 1)]
      omega
    · rw [dif_neg h]
      simp only [List.flatten_cons, List.flatten_nil, List.append_nil,
        List.length_take, hc k]
      omega

theorem takeChunks_subset (choice : ℕ → List ℕ → List ℕ) (a : List ℕ)
    (hc : ∀ k, (choice k a).Perm a) :
    ∀ n k x, x ∈ (takeChunks choice a k n).flatten → x ∈ a := by
  intro n
  induction n using Nat.strong_induction_on with
  | _ n ih =>
    intro k x hx
    unfold takeChunks at hx
    by_cases h : a.length < n ∧ 0 < a.length
    · rw [dif_pos h, List.flatten_cons] at hx
      rcases List.mem_append.mp hx with h1 | h2
      · exact (hc k).mem_iff.mp h1
      · exact ih (n - a.length) (by omega) (k + 1) x h2
    · rw [dif_neg h] at hx
      simp only [List.flatten_cons, List.flatten_nil, List.append_nil] at hx
      exact (hc k).mem_iff.mp (List.take_subset _ _ hx)

theorem take_length (choice : ℕ → List ℕ → List ℕ)
    (perm : List ℕ → List ℕ) (a : List ℕ) (n : ℕ)
    (hc : ∀ k, (choice k a).Perm a) (hp : ∀ l, (perm l).Perm l)
    (ha : 0 < a.length) :
    (take choice perm a n).length = n := by
  unfold take
  rw [(hp _).length_eq]
  exact takeChunks_flatten_length choice a (fun k => (hc k).length_eq) ha n 0

theorem take_subset (choice : ℕ → List ℕ → List ℕ)
    (perm : List ℕ → List ℕ) (a : List ℕ) (n : ℕ)
    (hc : ∀ k, (choice k a).Perm a) (hp : ∀ l, (perm l).Perm l) :
    ∀ x ∈ take choice perm a n, x ∈ a := by
  intro x hx
  unfold take at hx
  exact takeChunks_subset choice a hc n 0 x ((hp _).mem_iff.mp hx)

theorem take_count_le (choice : ℕ → List ℕ → List ℕ)
    (perm : List ℕ → List ℕ) (a : List ℕ) (n : ℕ)
    (hc : ∀ k, (choice k a).Perm a) (hp : ∀ l, (perm l).Perm l)
    (hn : ¬ a.length < n) :
    ∀ x, (take choice perm a n).count x ≤ a.count x := by
  intro x
  unfold take takeChunks
  rw [dif_neg (fun hh => hn hh.1)]
  rw [(hp _).count_eq]
  simp only [List.flatten_cons, List.flatten_nil, List.append_nil]
  calc ((choice 0 a).take n).count x ≤ (choice 0 a).count x :=
        (List.take_sublist n _).count_le x
    _ = a.count x := (hc 0).count_eq x

theorem count_zip_flatMap (charges : List ℕ) :
    ∀ (k i : ℕ),
      (((List.range' k charges.length).zip charges).flatMap
        (fun p => List.replicate p.2 p.1)).count i =
      if k ≤ i ∧ i < k + charges.length then charges.getD (i - k) 0 else 0 := by
  induction charges with
  | nil =>
    intro k i
    rw [if_neg (by simp only [List.length_nil]; omega)]
    rfl
  | cons c cs ih =>
    intro k i
    rw [show (c :: cs).length = cs.length + 1 from rfl, List.range'_succ]
    rw [show ((k :: List.range' (k + 1) cs.length).zip (c :: cs)) =
      (k, c) :: (List.range' (k + 1) cs.length).zip cs from rfl]
    rw [List.flatMap_cons, List.count_append, ih (k + 1) i]
    simp only [List.count_replicate, beq_iff_eq]
    by_cases hik : i = k
    · subst hik
      rw [if_pos rfl, if_neg (by omega), if_pos (by omega)]
      simp
    · rw [if_neg (fun hh => hik hh.symm)]
      by_cases hin : k + 1 ≤ i ∧ i < k + 1 + cs.length
      · rw [if_pos hin, if_pos (by omega)]
        have h3 : i - k = (i - (k + 1)) + 1 := by omega
        rw [h3, List.getD_cons_succ]
        omega
      · rw [if_neg hin, if_neg (by omega)]

theorem count_arangeRepeat (charges : List ℕ) (i : ℕ)
    (hi : i < charges.length) :
    (arangeRepeat charges).count i = charges.getD i 0 := by
  unfold arangeRepeat
  rw [List.range_eq_range', count_zip_flatMap charges 0 i,
    if_pos (by omega), Nat.sub_zero]

theorem mem_arangeRepeat_lt (charges : List ℕ) :
    ∀ i ∈ arangeRepeat charges, i < charges.length := by
  intro i hi
  unfold arangeRepeat at hi
  obtain ⟨p, hp, hrep⟩ := List.mem_flatMap.mp hi
  have h1 : p.1 ∈ List.range charges.length :=
    (List.of_mem_zip hp).1
  have h2 : i = p.1 := List.eq_of_mem_replicate hrep
  rw [h2]
  exact List.mem_range.mp h1

/-- **C9**: the geometry-based walker initializer returns a batch of
shape exactly `n_walker × n_electrons × 3`; each walker's atom
assignment is a length-`n_electrons` draw from the charge-repetition
list — in which atom `i` appears exactly `charges[i]` times — sampled
without replacement within a full pass; and each coordinate equals the
scaled Gaussian draw plus the assigned atom's coordinate. -/
theorem sample_start_contract (choice : ℕ → ℕ → List ℕ → List ℕ)
    (perm : ℕ → List ℕ → List ℕ) (coords : List Vec) (charges : List ℕ)
    (n_walker n_electrons : ℕ) (var : ℚ) (noise : Batch)
    (hc : ∀ w k, (choice w k (arangeRepeat charges)).Perm (arangeRepeat charges))
    (hp : ∀ w l, (perm w l).Perm l)
    (ha : 0 < (arangeRepeat charges).length)
    (hn : HasShape noise n_walker n_electrons)
    (hcoord : ∀ v ∈ coords, v.length = 3)
    (hlen : charges.length = coords.length) :
    HasShape (sample_start choice perm coords charges n_walker n_electrons var noise)
      n_walker n_electrons ∧
    (∀ w,
      (take (choice w) (perm w) (arangeRepeat charges) n_electrons).length =
        n_electrons ∧
      ∀ i ∈ take (choice w) (perm w) (arangeRepeat charges) n_electrons,
        i ∈ arangeRepeat charges) ∧
    (∀ i, i < charges.length →
      (arangeRepeat charges).count i = charges.getD i 0) ∧
    (¬ (arangeRepeat charges).length < n_electrons →
      ∀ w x,
        (take (choice w) (perm w) (arangeRepeat charges) n_electrons).count x ≤
          (arangeRepeat charges).count x) ∧
    (∀ w e c, w < n_walker → e < n_electrons → c < 3 →
      at3 (sample_start choice perm coords charges n_walker n_electrons var noise)
          w e c =
        at3 noise w e c * var +
          (coords.getD
            ((take (choice w) (perm w) (arangeRepeat charges) n_electrons).getD e 0)
            []).getD c 0) := by
  have hcenters_eq :
      ((List.range n_walker).map
        (fun w => take (choice w) (perm w) (arangeRepeat charges) n_electrons)).map
        (fun row => row.map (fun i => coords.getD i [])) =
      (List.range n_walker).map
        (fun w => (take (choice w) (perm w) (arangeRepeat charges) n_electrons).map
          (fun i => coords.getD i [])) := by
    rw [List.map_map]
    rfl
  have hcshape : HasShape ((List.range n_walker).map
      (fun w => (take (choice w) (perm w) (arangeRepeat charges) n_electrons).map
        (fun i => coords.getD i []))) n_walker n_electrons := by
    constructor
    · simp
    · intro p hpmem
      obtain ⟨w, hwr, rfl⟩ := List.mem_map.mp hpmem
      constructor
      · rw [List.length_map]
        exact take_length _ _ _ _ (fun k => hc w k) (fun l => hp w l) ha
      · intro v hv
        obtain ⟨i, hi, rfl⟩ := List.mem_map.mp hv
        have himem : i ∈ arangeRepeat charges :=
          take_subset _ _ _ _ (fun k => hc w k) (fun l => hp w l) i hi
        have hilt : i < coords.length :=
          hlen ▸ mem_arangeRepeat_lt charges i himem
        rw [getD_of_lt coords [] hilt]
        exact hcoord _ (List.getElem_mem hilt)
  refine ⟨?_, ?_, fun i hi => count_arangeRepeat charges i hi, ?_, ?_⟩
  · simp only [sample_start]
    rw [hcenters_eq]
    exact hn.bzip hcshape
  · intro w
    exact ⟨take_length _ _ _ _ (fun k => hc w k) (fun l => hp w l) ha,
      fun i hi => take_subset _ _ _ _ (fun k => hc w k) (fun l => hp w l) i hi⟩
  · intro hnn w x
    exact take_count_le _ _ _ _ (fun k => hc w k) (fun l => hp w l) hnn x
  · intro w e c hw he hc3
    simp only [sample_start]
    rw [hcenters_eq, at3_bzip hn hcshape hw he hc3]
    congr 1
    unfold at3
    rw [getD_map_of_lt _ (List.range n_walker) w [] 0 (by simpa using hw),
      getD_of_lt (List.range n_walker) 0 (by simpa using hw),
      List.getElem_range,
      getD_map_of_lt _ _ e [] 0
        (by rw [take_length _ _ _ _ (fun k => hc w k) (fun l => hp w l) ha]
            exact he)]

/-- Witness for C9 at the spec's concrete instance: charges `[1,1,8]`,
10 electrons, 4 walkers — the output batch has shape exactly
`4 × 10 × 3`. -/
theorem sample_start_contract_witness :
    HasShape (sample_start (fun _ _ a => a) (fun _ l => l)
      [[0, 0, 0], [1, 1, 1], [2, 2, 2]] [1, 1, 8] 4 10 1
      (List.replicate 4 (List.replicate 10 [0, 0, 0]))) 4 10 :=
  (sample_start_contract (fun _ _ a => a) (fun _ l => l)
    [[0, 0, 0], [1, 1, 1], [2, 2, 2]] [1, 1, 8] 4 10 1
    (List.replicate 4 (List.replicate 10 [0, 0, 0]))
    (fun _ _ => List.Perm.refl _) (fun _ _ => List.Perm.refl _)
    (by decide) (by decide) (by decide) (by decide)).1

/-! ## C10 — mean-field-based walker initializer -/

/-- Counterexample for **C10**: with three unit-charge atoms, molecular
charge 1 (so `n_electrons = 2`) and batch size 2, a noise draw that
rounds to row occupation sums 3 and 1 — not 2 and 2 — still totals
4 = 2·2, so the reshape succeeds and `rand_from_mf` returns a
(cross-assigned) batch of shape (2, 2, 3) instead of failing. -/
theorem rand_from_mf_per_row_refuted :
    (mfRepeats [1, 1, 1] [0, 0, 0] 2 1
        [[-2/5, -2/5, -1/5], [-3/5, -3/5, 1/5]]).map (fun row => row.sum) =
      [3, 1] ∧
    ([3, 1] : List ℤ) ≠ [2, 2] ∧
    rand_from_mf [1, 1, 1] 1 [0, 0, 0] [[0, 0, 0], [1, 1, 1], [2, 2, 2]]
      2 1 1 [[-2/5, -2/5, -1/5], [-3/5, -3/5, 1/5]]
      [[[0, 0, 0], [0, 0, 0]], [[0, 0, 0], [0, 0, 0]]] =
      some [[[0, 0, 0], [1, 1, 1]], [[2, 2, 2], [2, 2, 2]]] ∧
    HasShape [[[0, 0, 0], [1, 1, 1]], [[2, 2, 2], [2, 2, 2]]] 2 2 :=
  ⟨by decide, by decide, by decide, by decide⟩

/-- Amended **C10**: `rand_from_mf` returns a batch iff every rounded
occupation count is nonnegative and the counts' total over the whole
flattened batch equals `bs · n_electrons`; no renormalization or
per-row check is performed, so row deviations that cancel in the total
still produce a (malformed) batch. -/
theorem rand_from_mf_reshape_amended (charges : List ℤ) (molCharge : ℤ)
    (pop : List ℚ) (coords : List Vec) (bs : ℕ) (charge_std elec_std : ℚ)
    (noiseC : List (List ℚ)) (noiseE : Batch) :
    (rand_from_mf charges molCharge pop coords bs charge_std elec_std
        noiseC noiseE).isSome ↔
      ((mfRepeats charges pop (charges.sum - molCharge) charge_std
          noiseC).any (fun row => row.any (fun r => decide (r < 0))) = false ∧
       (mfFlatIdxs charges.length
          (mfRepeats charges pop (charges.sum - molCharge) charge_std
            noiseC)).length = bs * (charges.sum - molCharge).toNat) := by
  simp only [rand_from_mf]
  by_cases h1 : (mfRepeats charges pop (charges.sum - molCharge) charge_std
      noiseC).any (fun row => row.any (fun r => decide (r < 0))) = true
  · simp [h1]
  · by_cases h2 : (mfFlatIdxs charges.length
        (mfRepeats charges pop (charges.sum - molCharge) charge_std
          noiseC)).length = bs * (charges.sum - molCharge).toNat
    · simp [h1, h2]
    · simp [h1, h2]

end DLQMC
